import Mathlib

set_option maxRecDepth 100000

/-!
Verification model of the chunked file storage layer
(`src/file-storage/file-storage.ts`, `src/file-storage/helpers.ts`,
`src/file-storage/storage-backend/test-backend.ts`).

Bytes are modelled as `Nat` values, byte buffers as `List Nat`.  The
key/value backend (`TestStorageBackend`) is modelled as an explicit state
record with one function map for the scalar store and one for the list
store; `async` code is modelled by explicit state passing, with each
`backend.set` applying its mutation at issue time (the in-repo
`TestStorageBackend.set` mutates its map synchronously before any await
point).  A promise rejection of a `set` call is modelled through a failure
oracle indexed by the call number; a rejection is observed only where the
code awaits the corresponding promise.
-/

/-! ## SHA-1 (model of `crypto.createHash("sha1")` from `node:crypto`,
the digest primitive `computeChecksum` delegates to) -/

/-- Word size modulus for SHA-1 32-bit arithmetic. -/
def mask32 : Nat := 4294967296

/-- Rotate a 32-bit word left by `k` bits. -/
def rotl32 (k x : Nat) : Nat := ((x <<< k) ||| (x >>> (32 - k))) % mask32

/-- SHA-1 round constant for round `i`. -/
def sha1K (i : Nat) : Nat :=
  if i < 20 then 0x5A827999
  else if i < 40 then 0x6ED9EBA1
  else if i < 60 then 0x8F1BBCDC
  else 0xCA62C1D6

/-- SHA-1 round function for round `i`. -/
def sha1F (i b c d : Nat) : Nat :=
  if i < 20 then (b &&& c) ||| ((b ^^^ 0xFFFFFFFF) &&& d)
  else if i < 40 then b ^^^ c ^^^ d
  else if i < 60 then (b &&& c) ||| (b &&& d) ||| (c &&& d)
  else b ^^^ c ^^^ d

/-- Message-schedule extension: starting from the 16 block words (held in
reversed order), prepend `fuel` further words `w[i] = rotl1 (w[i-3] ^ w[i-8]
^ w[i-14] ^ w[i-16])`, returning the schedule in forward order. -/
def sha1Schedule : Nat → List Nat → List Nat
  | 0, racc => racc.reverse
  | n + 1, racc =>
      sha1Schedule n
        (rotl32 1 (racc.getD 2 0 ^^^ racc.getD 7 0 ^^^ racc.getD 13 0 ^^^ racc.getD 15 0) :: racc)

/-- Big-endian packing of bytes into 32-bit words (4 bytes per word). -/
def bytesToWords : List Nat → List Nat
  | b0 :: b1 :: b2 :: b3 :: rest =>
      (((b0 * 256 + b1) * 256 + b2) * 256 + b3) :: bytesToWords rest
  | _ => []

/-- Big-endian 8-byte encoding of the 64-bit message bit length. -/
def lenBytes (n : Nat) : List Nat :=
  [n / 2 ^ 56 % 256, n / 2 ^ 48 % 256, n / 2 ^ 40 % 256, n / 2 ^ 32 % 256,
   n / 2 ^ 24 % 256, n / 2 ^ 16 % 256, n / 2 ^ 8 % 256, n % 256]

/-- SHA-1 padding: append `0x80`, zero bytes up to 56 mod 64, then the
bit length as 8 big-endian bytes. -/
def sha1Pad (msg : List Nat) : List Nat :=
  msg ++ [0x80] ++ List.replicate ((64 - (msg.length + 9) % 64) % 64) 0 ++ lenBytes (8 * msg.length)

/-- Split a list into contiguous groups of `cPred + 1` elements (the last
group may be shorter); fuel-indexed so that it reduces in the kernel. -/
def chunksOfAux (cPred : Nat) : Nat → List Nat → List (List Nat)
  | 0, _ => []
  | _, [] => []
  | fuel + 1, a :: l => (a :: l.take cPred) :: chunksOfAux cPred fuel (l.drop cPred)

/-- Split a list into contiguous groups of `cPred + 1` elements. -/
def chunksOf (cPred : Nat) (l : List Nat) : List (List Nat) :=
  chunksOfAux cPred l.length l

/-- One SHA-1 compression step over a 16-word block. -/
def sha1Compress (h : Nat × Nat × Nat × Nat × Nat) (block16 : List Nat) :
    Nat × Nat × Nat × Nat × Nat :=
  let w := sha1Schedule 64 block16.reverse
  let fin := w.foldl
    (fun (st : Nat × Nat × Nat × Nat × Nat × Nat) wi =>
      let (i, a, b, c, d, e) := st
      ((i + 1), (rotl32 5 a + sha1F i b c d + e + sha1K i + wi) % mask32, a, rotl32 30 b, c, d))
    (0, h.1, h.2.1, h.2.2.1, h.2.2.2.1, h.2.2.2.2)
  ((h.1 + fin.2.1) % mask32, (h.2.1 + fin.2.2.1) % mask32, (h.2.2.1 + fin.2.2.2.1) % mask32,
   (h.2.2.2.1 + fin.2.2.2.2.1) % mask32, (h.2.2.2.2 + fin.2.2.2.2.2) % mask32)

/-- SHA-1 state after processing the whole (padded) message. -/
def sha1Core (msg : List Nat) : Nat × Nat × Nat × Nat × Nat :=
  (chunksOf 63 (sha1Pad msg)).foldl (fun h blk => sha1Compress h (bytesToWords blk))
    (0x67452301, 0xEFCDAB89, 0x98BADCFE, 0x10325476, 0xC3D2E1F0)

/-- Lower-case hex digit, as produced by node's `digest("hex")`. -/
def hexChar (n : Nat) : Char :=
  if n < 10 then Char.ofNat (48 + n) else Char.ofNat (87 + n)

/-- Eight lower-case hex digits of a 32-bit word, most significant first. -/
def hex8 (x : Nat) : List Char :=
  [hexChar (x / 16 ^ 7 % 16), hexChar (x / 16 ^ 6 % 16), hexChar (x / 16 ^ 5 % 16),
   hexChar (x / 16 ^ 4 % 16), hexChar (x / 16 ^ 3 % 16), hexChar (x / 16 ^ 2 % 16),
   hexChar (x / 16 % 16), hexChar (x % 16)]

/-- Render the five SHA-1 state words as a 40-character hex string. -/
def renderDigest (h : Nat × Nat × Nat × Nat × Nat) : String :=
  String.mk (hex8 h.1 ++ hex8 h.2.1 ++ hex8 h.2.2.1 ++ hex8 h.2.2.2.1 ++ hex8 h.2.2.2.2)

/-- SHA-1 hex digest of a byte sequence. -/
def sha1Hex (msg : List Nat) : String := renderDigest (sha1Core msg)

/-! ## `computeChecksum` (`src/file-storage/helpers.ts`) -/

/-- A node.js `Buffer`: a view (`byteOffset`, `byteLength`) into a possibly
shared backing `ArrayBuffer` (`data.buffer`), as used by `toDataView`. -/
structure JsBuffer where
  backing : List Nat
  byteOffset : Nat
  byteLength : Nat
deriving DecidableEq

/-- Model of `toDataView`: `new DataView(data.buffer, data.byteOffset,
data.byteLength)` selects exactly the logical byte window of the view. -/
def toDataView (b : JsBuffer) : List Nat :=
  (b.backing.drop b.byteOffset).take b.byteLength

/-- Model of `computeChecksum`: SHA-1 hex digest of the data view. -/
def computeChecksum (b : JsBuffer) : String := sha1Hex (toDataView b)

/-- Checksum of a buffer given directly by its logical bytes (a buffer whose
view covers exactly those bytes); the storage layer is modelled over logical
byte lists, so its checksum calls use this form. -/
def computeChecksumBytes (bytes : List Nat) : String := sha1Hex bytes


/-! ## Data model (`FileMetadata`, key layout, backend state) -/

/-- The per-file metadata record (interface `FileMetadata`; source field
names `_fileName` and `_chunkSize` carry a leading underscore). -/
structure FileMetadata where
  fileName : String
  totalChunks : Nat
  chunkSize : Nat
  totalSize : Nat
  checksum : String
  createdAt : Nat
deriving DecidableEq

/-- A value held by the backend (`StoredValue = string | Buffer`).  A
metadata record is stored as the string `JSON.stringify m`; `JSON.stringify`
(node builtin) is injective on `FileMetadata` records and `JSON.parse`
recovers the record, so that string is modelled by its content `m`.  Such a
string starts with a brace and is in particular nonempty. -/
inductive StoredValue where
  | str (s : String)
  | metaStr (m : FileMetadata)
  | buf (b : List Nat)
deriving DecidableEq

/-- State of a `TestStorageBackend`: the scalar `store` and the `listStore`
are separate records in the source, hence separate maps here. -/
structure BackendState where
  store : String → Option StoredValue
  listStore : String → List StoredValue

/-- A freshly constructed `TestStorageBackend` (both records empty). -/
def emptyBackend : BackendState :=
  { store := fun _ => none, listStore := fun _ => [] }

/-- Model of `TestStorageBackend.set` (the mutation itself). -/
def setStore (st : BackendState) (k : String) (v : StoredValue) : BackendState :=
  { st with store := fun q => if q = k then some v else st.store q }

/-- Model of `TestStorageBackend.rPush`: append to the named list.  (In the
source the append runs in a `setTimeout` callback; it is modelled as already
applied — eventual visibility, and nothing reads the list in between.) -/
def rPushState (st : BackendState) (k : String) (v : StoredValue) : BackendState :=
  { st with listStore := fun q => if q = k then st.listStore q ++ [v] else st.listStore q }

/-- Model of `TestStorageBackend.getBuffer`: the stored value if it is a
`Buffer`, `null` otherwise. -/
def getBuffer (st : BackendState) (k : String) : Option (List Nat) :=
  match st.store k with
  | some (.buf b) => some b
  | _ => none

/-- The constant `FILE_LIST_KEY`. -/
def FILE_LIST_KEY : String := "uploaded_files"

/-- The constant `MAX_CHUNK_SIZE` (512 MiB). -/
def MAX_CHUNK_SIZE : Nat := 512 * 1024 * 1024

/-- The key `` `${CHUNK_PREFIX}${fileName}:${i}` ``; a JS number in a
template literal prints via its decimal representation, i.e. `Nat.repr`. -/
def chunkKey (name : String) (i : Nat) : String :=
  "chunk:" ++ name ++ ":" ++ Nat.repr i

/-- The key `` `${METADATA_PREFIX}${fileName}` ``. -/
def metaKey (name : String) : String := "meta:" ++ name

/-! ## Upload path (`AppFileStorage.uploadFile`)

The incoming stream is modelled by the list of byte fragments the reader
yields; `completeBuffer` is their concatenation and `totalSize` the sum of
their lengths, exactly as accumulated by the drain loop.
`checkMemoryUsage` reads process-level heap statistics and is modelled as
below threshold (no claim concerns the memory-pressure path).

Each `backend.set` call is numbered; the failure `oracle` says which calls
reject.  A rejected call leaves the store unmutated and its error is raised
only where the code awaits the corresponding promise. -/

/-- Errors thrown by the upload path. -/
inductive UploadError where
  | chunkSizeTooLarge
  | setFailed (callIdx : Nat)
deriving DecidableEq

/-- The never-failing oracle: every backend call succeeds, as with the
in-repo `TestStorageBackend`, whose `set` never throws. -/
def noFail : Nat → Bool := fun _ => false

/-- Model of `Buffer.slice(s, e)`: the byte window `[s, e)`. -/
def jsSlice (l : List Nat) (s e : Nat) : List Nat := (l.drop s).take (e - s)

/-- The chunk-splitting loop
`for (let i = 0; i < completeBuffer.length; i += _chunkSize)`, fuel-indexed:
`none` means the loop has not terminated within `fuel` iterations.  For
`chunkSize = 0` the index never advances, so the result is `none` for every
fuel (the loop diverges); for `chunkSize ≥ 1` a fuel of `buf.length + 1`
always suffices. -/
def splitLoop (chunkSize : Nat) (buf : List Nat) : Nat → Nat → List (List Nat) →
    Option (List (List Nat))
  | 0, _, _ => none
  | fuel + 1, i, acc =>
      if i < buf.length then
        splitLoop chunkSize buf fuel (i + chunkSize)
          (acc ++ [jsSlice buf i (min (i + chunkSize) buf.length)])
      else some acc

/-- The chunk-write loop with its `pendingWrites` queue: each iteration
issues `set(chunkKey i, chunks[i])` (the mutation applies at issue time
unless the call rejects), pushes the outcome, sets `chunkIndex = i + 1`, and
when `pendingWrites.length >= _parallel` awaits
`Promise.all(pendingWrites.splice(0, _parallel))` — `splice` clamps a
negative delete count to 0, and `Promise.all` surfaces the first rejection
among the awaited outcomes.  Writes left in the queue when the loop ends are
never awaited.  Returns the observed failure (with the current `chunkIndex`)
if any, the state, and the next call number. -/
def writeChunksLoop (oracle : Nat → Bool) (name : String) (parallel : Int) :
    List (List Nat) → Nat → List (Option UploadError) → BackendState → Nat →
    Option (UploadError × Nat) × BackendState × Nat
  | [], _, _, st, ctr => (none, st, ctr)
  | ch :: rest, i, pending, st, ctr =>
      let out := if oracle ctr then some (UploadError.setFailed ctr) else none
      let st1 := if oracle ctr then st else setStore st (chunkKey name i) (.buf ch)
      let pending1 := pending ++ [out]
      if (pending1.length : Int) ≥ parallel then
        match (pending1.take parallel.toNat).findSome? id with
        | some e => (some (e, i + 1), st1, ctr + 1)
        | none => writeChunksLoop oracle name parallel rest (i + 1) (pending1.drop parallel.toNat) st1 (ctr + 1)
      else writeChunksLoop oracle name parallel rest (i + 1) pending1 st1 (ctr + 1)

/-- The catch-block cleanup: overwrite chunk slots `0 .. cnt-1` with empty
buffers, swallowing any error of these `set` calls themselves. -/
def cleanupChunks (oracle : Nat → Bool) (name : String) (cnt : Nat)
    (st : BackendState) (ctr : Nat) : BackendState × Nat :=
  (List.range cnt).foldl
    (fun acc i =>
      if oracle acc.2 then (acc.1, acc.2 + 1)
      else (setStore acc.1 (chunkKey name i) (.buf []), acc.2 + 1))
    (st, ctr)

/-- Model of `AppFileStorage.uploadFile`.  `none` models non-termination of
the split loop; otherwise the thrown error or unit result is returned with
the final backend state. -/
def uploadFile (st : BackendState) (frags : List (List Nat)) (name : String)
    (chunkSize : Nat) (parallel : Int) (oracle : Nat → Bool) (now : Nat) :
    Option (Except UploadError Unit × BackendState) :=
  if chunkSize > MAX_CHUNK_SIZE then some (.error .chunkSizeTooLarge, st)
  else
    let completeBuffer := frags.flatten
    let totalSize := (frags.map List.length).sum
    let checksum := computeChecksumBytes completeBuffer
    match splitLoop chunkSize completeBuffer (completeBuffer.length + 1) 0 [] with
    | none => none
    | some chunks =>
        match writeChunksLoop oracle name parallel chunks 0 [] st 0 with
        | (some (e, cnt), st1, ctr1) =>
            some (.error e, (cleanupChunks oracle name cnt st1 ctr1).1)
        | (none, st1, ctr1) =>
            if oracle ctr1 then
              some (.error (.setFailed ctr1),
                (cleanupChunks oracle name chunks.length st1 (ctr1 + 1)).1)
            else
              some (.ok (),
                rPushState
                  (setStore st1 (metaKey name)
                    (.metaStr ⟨name, chunks.length, chunkSize, totalSize, checksum, now⟩))
                  FILE_LIST_KEY (.str name))

/-! ## Download path (`AppFileStorage.downloadFile`) -/

/-- Errors thrown by the download path, one constructor per `throw` site. -/
inductive DownloadError where
  | fileNotFound (name : String)
  | metaUnparseable (name : String)
  | invalidChunkCount (name : String)
  | chunkMissing (i : Nat) (name : String)
  | emptyChunk (name : String)
  | noData (name : String)
  | checksumMismatch (name : String) (expected got : String)
deriving DecidableEq

/-- Model of `Math.max(1, _parallel || 1)`: `0` is falsy in JS, so a zero or
negative parallelism is coerced to sequential. -/
def coerceParallel (p : Int) : Nat := (max 1 (if p = 0 then 1 else p)).toNat

/-- Model of `backend.get(metaKey)` followed by the `!metaStr` test and
`JSON.parse`: outer `none` is the not-found path (`get` returned `null` —
the stored value was absent or a `Buffer` — or the empty string, which is
falsy); `some none` is a nonempty plain string at the metadata key, which no
upload produces and which `JSON.parse` does not turn into a metadata record;
`some (some m)` is a stored metadata record. -/
def readMetadata (st : BackendState) (k : String) : Option (Option FileMetadata) :=
  match st.store k with
  | some (.metaStr m) => some (some m)
  | some (.str s) => if s = "" then none else some none
  | _ => none

/-- One batch of parallel chunk fetches: all requests are issued, and
`Promise.all` surfaces the first missing-chunk rejection (promises settle in
issue order against the synchronous test backend). -/
def fetchBatch (st : BackendState) (name : String) : List Nat →
    Except DownloadError (List (List Nat))
  | [] => .ok []
  | i :: rest =>
      match getBuffer st (chunkKey name i) with
      | none => .error (.chunkMissing i name)
      | some b =>
          match fetchBatch st name rest with
          | .error e => .error e
          | .ok bs => .ok (b :: bs)

/-- The per-batch `if (!data || data.length === 0)` check, in order. -/
def findEmptyChunk (name : String) : List (List Nat) → Option DownloadError
  | [] => none
  | b :: rest => if b.length = 0 then some (.emptyChunk name) else findEmptyChunk name rest

/-- The indices `currentChunk .. batchEnd - 1` of one batch. -/
def idxList (cur : Nat) : Nat → List Nat
  | 0 => []
  | n + 1 => cur :: idxList (cur + 1) n

/-- The chunk-retrieval `while (currentChunk < totalChunks)` loop:
`batchSize = min(parallel, remaining)`, `if (batchSize <= 0) break`, fetch
the batch, re-sort by index (the identity here: a sequential model yields
batch results already in issue order), run the empty-chunk check, append,
continue.  Also accumulates the trace of chunk keys requested.  Fuel-indexed
(structural recursion); a fuel of `remaining` always suffices since each
iteration consumes at least one chunk. -/
def fetchChunksLoopAux (st : BackendState) (name : String) (par : Nat) :
    Nat → Nat → Nat → List (List Nat) → List String →
    Except DownloadError (List (List Nat)) × List String
  | _, 0, _, acc, tr => (.ok acc, tr)
  | 0, _ + 1, _, acc, tr => (.ok acc, tr)
  | fuel + 1, r + 1, cur, acc, tr =>
      let batchSize := min par (r + 1)
      if batchSize = 0 then (.ok acc, tr)
      else
        let idxs := idxList cur batchSize
        let tr2 := tr ++ idxs.map (fun i => chunkKey name i)
        match fetchBatch st name idxs with
        | .error e => (.error e, tr2)
        | .ok bufs =>
            match findEmptyChunk name bufs with
            | some e => (.error e, tr2)
            | none =>
                fetchChunksLoopAux st name par fuel (r + 1 - batchSize) (cur + batchSize)
                  (acc ++ bufs) tr2

/-- Model of `AppFileStorage.downloadFile`, additionally returning the trace
of chunk keys requested from the backend. -/
def downloadFileT (st : BackendState) (name : String) (parallel : Int) :
    Except DownloadError (List Nat) × List String :=
  let par := coerceParallel parallel
  match readMetadata st (metaKey name) with
  | none => (.error (.fileNotFound name), [])
  | some none => (.error (.metaUnparseable name), [])
  | some (some m) =>
      if m.totalChunks = 0 then (.error (.invalidChunkCount name), [])
      else
        match fetchChunksLoopAux st name par m.totalChunks m.totalChunks 0 [] [] with
        | (.error e, tr) => (.error e, tr)
        | (.ok bufs, tr) =>
            let completeBuffer := bufs.flatten
            if completeBuffer.length = 0 then (.error (.noData name), tr)
            else
              let dl := computeChecksumBytes completeBuffer
              if dl ≠ m.checksum then (.error (.checksumMismatch name m.checksum dl), tr)
              else (.ok completeBuffer, tr)

/-- Model of `AppFileStorage.downloadFile` (result only). -/
def downloadFile (st : BackendState) (name : String) (parallel : Int) :
    Except DownloadError (List Nat) :=
  (downloadFileT st name parallel).1


/-! ## Specification-side helper definitions -/

/-- Number of decimal digits of a natural number. -/
def numDigits (n : Nat) : Nat :=
  if _h : n < 10 then 1 else numDigits (n / 10) + 1
termination_by n
decreasing_by exact Nat.div_lt_self (by omega) (by omega)

/-- One step of re-reading a decimal digit string. -/
def digitStep (a : Nat) (c : Char) : Nat := 10 * a + (c.toNat - 48)

/-- The cumulative effect of the chunk writes issued by the upload loop:
chunk `i` of the list goes to `chunkKey name (i0 + i)`. -/
def applyChunkWrites (name : String) : Nat → List (List Nat) → BackendState → BackendState
  | _, [], st => st
  | i, ch :: rest, st => applyChunkWrites name (i + 1) rest (setStore st (chunkKey name i) (.buf ch))

/-- The backend state a successful `uploadFile` run leaves behind: all chunk
writes, then the metadata record, then the file-index append. -/
def finalUploadState (st : BackendState) (name : String) (c now : Nat)
    (frags : List (List Nat)) : BackendState :=
  rPushState
    (setStore (applyChunkWrites name 0 (chunksOf (c - 1) frags.flatten) st) (metaKey name)
      (.metaStr ⟨name, (chunksOf (c - 1) frags.flatten).length, c,
        (frags.map List.length).sum, computeChecksumBytes frags.flatten, now⟩))
    FILE_LIST_KEY (.str name)

/-- The five SHA-1 state words packed into one number below `2 ^ 160`. -/
def digestNat (h : Nat × Nat × Nat × Nat × Nat) : Nat :=
  (((h.1 * mask32 + h.2.1) * mask32 + h.2.2.1) * mask32 + h.2.2.2.1) * mask32 + h.2.2.2.2

/-- A byte vector as a byte list. -/
def bytesOfVec {n : Nat} (v : Fin n → Fin 256) : List Nat := (List.ofFn v).map Fin.val

/-! ## Decimal representation: `Nat.repr` is injective

Chunk keys embed the chunk index through `Nat.repr`; distinctness of the
keys of distinct indices reduces to injectivity of the decimal printer,
proved by exhibiting a left inverse (a fold re-reading the digits). -/

example : computeChecksumBytes [0x61, 0x62, 0x63] = "a9993e364706816aba3e25717850c26c9cd0d89d" := by
  decide

example : computeChecksumBytes [] = "da39a3ee5e6b4b0d3255bfef95601890afd80709" := by
  decide

example :
    downloadFile emptyBackend "missing.bin" 1 = .error (.fileNotFound "missing.bin") := rfl

theorem numDigits_lt (n : Nat) (h : n < 10) : numDigits n = 1 := by
  unfold numDigits
  simp [h]

theorem numDigits_ge (n : Nat) (h : ¬ n < 10) : numDigits n = numDigits (n / 10) + 1 := by
  conv_lhs => unfold numDigits
  simp [h]

theorem digitChar_toNat (m : Nat) (h : m < 10) : (Nat.digitChar m).toNat = 48 + m := by
  revert h
  revert m
  decide

theorem toDigitsCore_foldl (n : Nat) :
    ∀ (fuel : Nat) (ds : List Char) (a : Nat), n < fuel →
      (Nat.toDigitsCore 10 fuel n ds).foldl digitStep a =
        ds.foldl digitStep (a * 10 ^ numDigits n + n) := by
  induction n using Nat.strong_induction_on with
  | _ n ih =>
    intro fuel ds a hfuel
    match fuel with
    | 0 => omega
    | f + 1 =>
      rw [Nat.toDigitsCore]
      by_cases h0 : n / 10 = 0
      · have hn : n < 10 := by omega
        simp only [h0, if_true]
        rw [List.foldl_cons, numDigits_lt n hn]
        congr 1
        simp only [digitStep, digitChar_toNat (n % 10) (Nat.mod_lt n (by omega))]
        have : n % 10 = n := Nat.mod_eq_of_lt hn
        omega
      · have hn : ¬ n < 10 := by omega
        simp only [h0, if_false]
        have hlt : n / 10 < n := Nat.div_lt_self (by omega) (by omega)
        rw [ih (n / 10) hlt f (Nat.digitChar (n % 10) :: ds) a (by omega)]
        rw [List.foldl_cons, numDigits_ge n hn]
        congr 1
        simp only [digitStep, digitChar_toNat (n % 10) (Nat.mod_lt n (by omega))]
        have hdm : 10 * (n / 10) + n % 10 = n := Nat.div_add_mod n 10
        have h48 : 48 + n % 10 - 48 = n % 10 := by omega
        rw [h48, pow_succ]
        nlinarith [hdm]

theorem foldl_toDigits (n : Nat) : (Nat.toDigits 10 n).foldl digitStep 0 = n := by
  rw [Nat.toDigits, toDigitsCore_foldl n (n + 1) [] 0 (by omega)]
  simp

theorem Nat.repr_injective : Function.Injective Nat.repr := by
  intro m n h
  have hdata : (Nat.toDigits 10 m) = (Nat.toDigits 10 n) := by
    have := congrArg String.data h
    simpa [Nat.repr, List.asString] using this
  have := congrArg (fun l => List.foldl digitStep 0 l) hdata
  simpa [foldl_toDigits] using this

/-! ## Key-layout lemmas -/

theorem chunkKey_inj (name : String) {i j : Nat} (h : chunkKey name i = chunkKey name j) :
    i = j := by
  apply Nat.repr_injective
  apply String.ext
  have := congrArg String.data h
  simp only [chunkKey, String.data_append] at this
  exact List.append_cancel_left this

theorem metaKey_ne_chunkKey (name name2 : String) (i : Nat) :
    metaKey name ≠ chunkKey name2 i := by
  intro h
  have := congrArg String.data h
  simp only [metaKey, chunkKey, String.data_append] at this
  simp at this

/-! ## Chunk-splitting lemmas -/

theorem chunksOfAux_nil (cPred fuel : Nat) : chunksOfAux cPred fuel [] = [] := by
  cases fuel <;> rfl

theorem chunksOfAux_fuel (cPred : Nat) :
    ∀ (f1 : Nat) (l : List Nat) (f2 : Nat), l.length ≤ f1 → l.length ≤ f2 →
      chunksOfAux cPred f1 l = chunksOfAux cPred f2 l := by
  intro f1
  induction f1 with
  | zero =>
      intro l f2 h1 _
      have : l = [] := List.eq_nil_of_length_eq_zero (by omega)
      subst this
      simp [chunksOfAux_nil]
  | succ f ih =>
      intro l f2 h1 h2
      match l with
      | [] => simp [chunksOfAux_nil]
      | a :: tl =>
          match f2 with
          | 0 => simp at h2
          | g + 1 =>
              show (a :: tl.take cPred) :: chunksOfAux cPred f (tl.drop cPred) =
                (a :: tl.take cPred) :: chunksOfAux cPred g (tl.drop cPred)
              congr 1
              apply ih
              · simp at h1 ⊢; omega
              · simp at h2 ⊢; omega

theorem chunksOf_nil (cPred : Nat) : chunksOf cPred [] = [] := rfl

theorem chunksOf_cons (cPred : Nat) (a : Nat) (l : List Nat) :
    chunksOf cPred (a :: l) = (a :: l.take cPred) :: chunksOf cPred (l.drop cPred) := by
  show (a :: l.take cPred) :: chunksOfAux cPred l.length (l.drop cPred) =
    (a :: l.take cPred) :: chunksOfAux cPred (l.drop cPred).length (l.drop cPred)
  congr 1
  apply chunksOfAux_fuel
  · simp
  · simp

theorem chunksOf_flatten (cPred : Nat) (l : List Nat) : (chunksOf cPred l).flatten = l := by
  suffices H : ∀ (n : Nat) (l : List Nat), l.length ≤ n → (chunksOf cPred l).flatten = l from
    H l.length l le_rfl
  intro n
  induction n with
  | zero =>
      intro l h
      have : l = [] := List.eq_nil_of_length_eq_zero (by omega)
      subst this
      simp [chunksOf_nil]
  | succ m ih =>
      intro l h
      match l with
      | [] => simp [chunksOf_nil]
      | a :: tl =>
          rw [chunksOf_cons]
          simp only [List.flatten_cons]
          rw [ih (tl.drop cPred) (by simp at h ⊢; omega)]
          simp [List.take_append_drop]

theorem chunksOf_length (cPred : Nat) (l : List Nat) :
    (chunksOf cPred l).length = (l.length + cPred) / (cPred + 1) := by
  suffices H : ∀ (n : Nat) (l : List Nat), l.length ≤ n →
      (chunksOf cPred l).length = (l.length + cPred) / (cPred + 1) from H l.length l le_rfl
  intro n
  induction n with
  | zero =>
      intro l h
      have : l = [] := List.eq_nil_of_length_eq_zero (by omega)
      subst this
      simp [chunksOf_nil, Nat.div_eq_of_lt (show cPred < cPred + 1 by omega)]
  | succ m ih =>
      intro l h
      match l with
      | [] =>
          simp [chunksOf_nil, Nat.div_eq_of_lt (show cPred < cPred + 1 by omega)]
      | a :: tl =>
          rw [chunksOf_cons]
          simp only [List.length_cons]
          rw [ih (tl.drop cPred) (by simp at h ⊢; omega)]
          simp only [List.length_drop]
          by_cases h : tl.length ≤ cPred
          · have h1 : tl.length - cPred = 0 := by omega
            rw [h1]
            rw [Nat.div_eq_of_lt (show 0 + cPred < cPred + 1 by omega)]
            rw [show (tl.length + 1 + cPred) / (cPred + 1) = 1 from
              Nat.div_eq_of_lt_le (by omega) (by omega)]
          · have h1 : tl.length - cPred + cPred = tl.length := by omega
            rw [h1]
            have h2 : tl.length + 1 + cPred = tl.length + (cPred + 1) := by omega
            rw [h2, Nat.add_div_right _ (by omega)]

theorem chunksOf_mem_ne_nil (cPred : Nat) (l : List Nat) :
    ∀ ch ∈ chunksOf cPred l, ch ≠ [] := by
  suffices H : ∀ (n : Nat) (l : List Nat), l.length ≤ n → ∀ ch ∈ chunksOf cPred l, ch ≠ [] from
    H l.length l le_rfl
  intro n
  induction n with
  | zero =>
      intro l h
      have : l = [] := List.eq_nil_of_length_eq_zero (by omega)
      subst this
      simp [chunksOf_nil]
  | succ m ih =>
      intro l h
      match l with
      | [] => simp [chunksOf_nil]
      | a :: tl =>
          rw [chunksOf_cons]
          intro ch hch
          rcases List.mem_cons.mp hch with h2 | h2
          · subst h2; simp
          · exact ih (tl.drop cPred) (by simp at h ⊢; omega) ch h2

/-! ## Split-loop lemmas -/

theorem splitLoop_zero_stuck (buf : List Nat) :
    ∀ (fuel i : Nat) (acc : List (List Nat)), i < buf.length →
      splitLoop 0 buf fuel i acc = none := by
  intro fuel
  induction fuel with
  | zero => intro i acc _; rfl
  | succ f ih =>
      intro i acc h
      show (if i < buf.length then splitLoop 0 buf f (i + 0) _ else some acc) = none
      rw [if_pos h, Nat.add_zero]
      exact ih i _ h

theorem splitLoop_spec (c : Nat) (hc : 0 < c) (buf : List Nat) :
    ∀ (fuel i : Nat) (acc : List (List Nat)), buf.length - i < fuel →
      splitLoop c buf fuel i acc = some (acc ++ chunksOf (c - 1) (buf.drop i)) := by
  intro fuel
  induction fuel with
  | zero => omega
  | succ f ih =>
      intro i acc hfuel
      show (if i < buf.length then
              splitLoop c buf f (i + c) (acc ++ [jsSlice buf i (min (i + c) buf.length)])
            else some acc) = _
      by_cases h : i < buf.length
      · rw [if_pos h, ih (i + c) _ (by omega)]
        congr 1
        rw [List.append_assoc]
        congr 1
        cases hd : buf.drop i with
        | nil => exfalso; have := congrArg List.length hd; simp at this; omega
        | cons a tl =>
            have hlen : tl.length = buf.length - i - 1 := by
              have := congrArg List.length hd; simp at this; omega
            rw [chunksOf_cons]
            have htl : tl = buf.drop (i + 1) := by
              have : (buf.drop i).drop 1 = tl := by rw [hd]; rfl
              rw [← this, List.drop_drop]
            have hslice : jsSlice buf i (min (i + c) buf.length) = a :: tl.take (c - 1) := by
              have h1 : a :: tl.take (c - 1) = (a :: tl).take c := by
                cases c with
                | zero => omega
                | succ cp => simp [List.take_succ_cons]
              rw [h1, ← hd]
              show (buf.drop i).take (min (i + c) buf.length - i) = (buf.drop i).take c
              rw [List.take_eq_take]
              simp only [List.length_drop]
              omega
            have hdrop : tl.drop (c - 1) = buf.drop (i + c) := by
              rw [htl, List.drop_drop]
              congr 1
              omega
            rw [hslice, hdrop]
            simp
      · rw [if_neg h]
        have : buf.drop i = [] := List.drop_eq_nil_of_le (by omega)
        rw [this, chunksOf_nil, List.append_nil]

theorem splitLoop_top (c : Nat) (hc : 0 < c) (buf : List Nat) :
    splitLoop c buf (buf.length + 1) 0 [] = some (chunksOf (c - 1) buf) := by
  rw [splitLoop_spec c hc buf (buf.length + 1) 0 [] (by omega)]
  simp

/-! ## Upload-loop lemmas -/

theorem findSome?_id_none :
    ∀ (l : List (Option UploadError)), (∀ o ∈ l, o = none) → l.findSome? id = none := by
  intro l
  induction l with
  | nil => intro _; rfl
  | cons a t ih =>
      intro h
      have ha := h a (by simp)
      subst ha
      simp only [List.findSome?]
      exact ih (fun o ho => h o (by simp [ho]))

theorem writeChunksLoop_noFail (name : String) (parallel : Int) :
    ∀ (chunks : List (List Nat)) (i : Nat) (pending : List (Option UploadError))
      (st : BackendState) (ctr : Nat), (∀ o ∈ pending, o = none) →
      writeChunksLoop noFail name parallel chunks i pending st ctr =
        (none, applyChunkWrites name i chunks st, ctr + chunks.length) := by
  intro chunks
  induction chunks with
  | nil =>
      intro i pending st ctr _
      simp [writeChunksLoop, applyChunkWrites]
  | cons ch rest ih =>
      intro i pending st ctr hp
      have hp1 : ∀ o ∈ pending ++ [none], o = (none : Option UploadError) := by
        intro o ho
        rcases List.mem_append.mp ho with h | h
        · exact hp o h
        · simpa using h
      simp only [writeChunksLoop, noFail, Bool.false_eq_true, if_false, ge_iff_le]
      by_cases hcond : parallel ≤ ((pending ++ [none]).length : Int)
      · rw [if_pos hcond]
        rw [findSome?_id_none _ (fun o ho => hp1 o (List.mem_of_mem_take ho))]
        rw [ih (i + 1) _ _ (ctr + 1) (fun o ho => hp1 o (List.mem_of_mem_drop ho))]
        simp only [applyChunkWrites, List.length_cons]
        rw [show ctr + 1 + rest.length = ctr + (rest.length + 1) by omega]
      · rw [if_neg hcond]
        rw [ih (i + 1) _ _ (ctr + 1) hp1]
        simp only [applyChunkWrites, List.length_cons]
        rw [show ctr + 1 + rest.length = ctr + (rest.length + 1) by omega]

theorem uploadFile_success (st : BackendState) (frags : List (List Nat)) (name : String)
    (c : Nat) (p : Int) (now : Nat) (hc2 : c ≤ MAX_CHUNK_SIZE)
    (h : 0 < c ∨ frags.flatten = []) :
    uploadFile st frags name c p noFail now =
      some (.ok (), finalUploadState st name c now frags) := by
  have hsplit : splitLoop c frags.flatten (frags.flatten.length + 1) 0 [] =
      some (chunksOf (c - 1) frags.flatten) := by
    rcases h with hc | he
    · exact splitLoop_top c hc frags.flatten
    · rw [he, chunksOf_nil]
      rfl
  simp only [uploadFile]
  rw [if_neg (by omega)]
  rw [hsplit]
  simp only
  rw [writeChunksLoop_noFail name p _ 0 [] st 0 (by simp)]
  simp only [noFail, Bool.false_eq_true, if_false]
  rfl

/-! ## Lookup lemmas for the post-upload state -/

theorem applyChunkWrites_store_ne (name : String) :
    ∀ (chunks : List (List Nat)) (i0 : Nat) (st : BackendState) (k : String),
      (∀ j, i0 ≤ j → j < i0 + chunks.length → k ≠ chunkKey name j) →
      (applyChunkWrites name i0 chunks st).store k = st.store k := by
  intro chunks
  induction chunks with
  | nil => intro i0 st k _; rfl
  | cons ch rest ih =>
      intro i0 st k hk
      show (applyChunkWrites name (i0 + 1) rest (setStore st (chunkKey name i0) (.buf ch))).store k
        = st.store k
      rw [ih (i0 + 1) _ k (fun j hj1 hj2 => hk j (by omega) (by simp at hj2 ⊢; omega))]
      simp only [setStore]
      rw [if_neg (hk i0 le_rfl (by simp))]

theorem applyChunkWrites_store_get (name : String) :
    ∀ (chunks : List (List Nat)) (i0 : Nat) (st : BackendState) (j : Nat),
      i0 ≤ j → j < i0 + chunks.length →
      (applyChunkWrites name i0 chunks st).store (chunkKey name j) =
        some (.buf (chunks.getD (j - i0) [])) := by
  intro chunks
  induction chunks with
  | nil => intro i0 st j h1 h2; simp at h2; omega
  | cons ch rest ih =>
      intro i0 st j h1 h2
      show (applyChunkWrites name (i0 + 1) rest
        (setStore st (chunkKey name i0) (.buf ch))).store (chunkKey name j) = _
      by_cases hj : j = i0
      · subst hj
        rw [applyChunkWrites_store_ne name rest (j + 1) _ (chunkKey name j)
          (fun j2 hj1 _ => fun he => by have := chunkKey_inj name he; omega)]
        simp [setStore]
      · have hj1 : j - i0 = (j - (i0 + 1)) + 1 := by omega
        rw [hj1]
        rw [ih (i0 + 1) _ j (by omega) (by simp at h2 ⊢; omega)]
        simp

theorem finalUploadState_store_meta (st : BackendState) (name : String) (c now : Nat)
    (frags : List (List Nat)) :
    (finalUploadState st name c now frags).store (metaKey name) =
      some (.metaStr ⟨name, (chunksOf (c - 1) frags.flatten).length, c,
        (frags.map List.length).sum, computeChecksumBytes frags.flatten, now⟩) := by
  simp [finalUploadState, rPushState, setStore]

theorem finalUploadState_store_chunk (st : BackendState) (name : String) (c now : Nat)
    (frags : List (List Nat)) (j : Nat) (hj : j < (chunksOf (c - 1) frags.flatten).length) :
    (finalUploadState st name c now frags).store (chunkKey name j) =
      some (.buf ((chunksOf (c - 1) frags.flatten).getD j [])) := by
  simp only [finalUploadState, rPushState, setStore]
  rw [if_neg (fun he => metaKey_ne_chunkKey name name j he.symm)]
  have := applyChunkWrites_store_get name (chunksOf (c - 1) frags.flatten) 0 st j
    (by omega) (by omega)
  simpa using this

theorem finalUploadState_store_other (st : BackendState) (name : String) (c now : Nat)
    (frags : List (List Nat)) (k : String) (hk1 : k ≠ metaKey name)
    (hk2 : ∀ j, j < (chunksOf (c - 1) frags.flatten).length → k ≠ chunkKey name j) :
    (finalUploadState st name c now frags).store k = st.store k := by
  simp only [finalUploadState, rPushState, setStore]
  rw [if_neg hk1]
  exact applyChunkWrites_store_ne name _ 0 st k (fun j _ hj2 => hk2 j (by omega))

theorem applyChunkWrites_listStore (name : String) :
    ∀ (chunks : List (List Nat)) (i0 : Nat) (st : BackendState),
      (applyChunkWrites name i0 chunks st).listStore = st.listStore := by
  intro chunks
  induction chunks with
  | nil => intro i0 st; rfl
  | cons ch rest ih =>
      intro i0 st
      show (applyChunkWrites name (i0 + 1) rest _).listStore = _
      rw [ih]
      rfl

theorem finalUploadState_listStore (st : BackendState) (name : String) (c now : Nat)
    (frags : List (List Nat)) (q : String) :
    (finalUploadState st name c now frags).listStore q =
      if q = FILE_LIST_KEY then st.listStore q ++ [.str name] else st.listStore q := by
  simp only [finalUploadState, rPushState, setStore]
  rw [applyChunkWrites_listStore]

/-! ## Download-loop lemmas -/

theorem coerceParallel_pos (p : Int) : 1 ≤ coerceParallel p := by
  unfold coerceParallel
  by_cases hp : p = 0
  · simp [hp]
  · rw [if_neg hp]
    omega

theorem coerceParallel_nonpos (p : Int) (hp : p ≤ 0) : coerceParallel p = 1 := by
  unfold coerceParallel
  by_cases h0 : p = 0
  · simp [h0]
  · rw [if_neg h0]
    omega

theorem idxList_length (n : Nat) : ∀ (cur : Nat), (idxList cur n).length = n := by
  induction n with
  | zero => intro cur; rfl
  | succ m ih => intro cur; simp [idxList, ih]

theorem idxList_mem (n : Nat) :
    ∀ (cur j : Nat), j ∈ idxList cur n ↔ cur ≤ j ∧ j < cur + n := by
  induction n with
  | zero => intro cur j; simp [idxList]
  | succ m ih =>
      intro cur j
      simp only [idxList, List.mem_cons, ih (cur + 1) j]
      omega

theorem idxList_append (n : Nat) :
    ∀ (cur m : Nat), idxList cur n ++ idxList (cur + n) m = idxList cur (n + m) := by
  induction n with
  | zero => intro cur m; simp [idxList]
  | succ k ih =>
      intro cur m
      simp only [idxList, List.cons_append]
      rw [show cur + (k + 1) = (cur + 1) + k by omega, ih (cur + 1) m]
      rw [show k + 1 + m = (k + m) + 1 by omega]
      rfl

theorem idxList_getElem (n : Nat) :
    ∀ (cur k : Nat) (h : k < (idxList cur n).length), (idxList cur n)[k] = cur + k := by
  induction n with
  | zero => intro cur k h; simp [idxList] at h
  | succ m ih =>
      intro cur k h
      match k with
      | 0 => simp [idxList]
      | k + 1 =>
          have h2 : k < (idxList (cur + 1) m).length := by
            simp only [idxList, List.length_cons] at h
            omega
          have he : (idxList cur (m + 1))[k + 1] = (idxList (cur + 1) m)[k] := rfl
          rw [he, ih (cur + 1) k h2]
          omega

theorem fetchBatch_ok (st : BackendState) (name : String) (v : Nat → List Nat) :
    ∀ (idxs : List Nat), (∀ j ∈ idxs, getBuffer st (chunkKey name j) = some (v j)) →
      fetchBatch st name idxs = .ok (idxs.map v) := by
  intro idxs
  induction idxs with
  | nil => intro _; rfl
  | cons i rest ih =>
      intro h
      simp only [fetchBatch]
      rw [h i (by simp)]
      rw [ih (fun j hj => h j (by simp [hj]))]
      rfl

theorem findEmptyChunk_none (name : String) :
    ∀ (bufs : List (List Nat)), (∀ b ∈ bufs, b ≠ []) → findEmptyChunk name bufs = none := by
  intro bufs
  induction bufs with
  | nil => intro _; rfl
  | cons b rest ih =>
      intro h
      simp only [findEmptyChunk]
      rw [if_neg (by have := h b (by simp); simpa [List.length_eq_zero] using this)]
      exact ih (fun x hx => h x (by simp [hx]))

theorem fetchLoop_ok (st : BackendState) (name : String) (par : Nat) (hpar : 1 ≤ par)
    (v : Nat → List Nat) :
    ∀ (fuel remaining cur : Nat) (acc : List (List Nat)) (tr : List String),
      remaining ≤ fuel →
      (∀ j, cur ≤ j → j < cur + remaining →
        getBuffer st (chunkKey name j) = some (v j) ∧ v j ≠ []) →
      (fetchChunksLoopAux st name par fuel remaining cur acc tr).1 =
        .ok (acc ++ (idxList cur remaining).map v) := by
  intro fuel
  induction fuel with
  | zero =>
      intro remaining cur acc tr h1 _
      have : remaining = 0 := by omega
      subst this
      simp [fetchChunksLoopAux, idxList]
  | succ f ih =>
      intro remaining cur acc tr h1 h2
      match remaining with
      | 0 => simp [fetchChunksLoopAux, idxList]
      | r + 1 =>
          have hb : 1 ≤ min par (r + 1) := by omega
          have hfb : fetchBatch st name (idxList cur (min par (r + 1))) =
              .ok ((idxList cur (min par (r + 1))).map v) :=
            fetchBatch_ok st name v _ (fun j hj => by
              have := (idxList_mem _ _ _).mp hj
              exact (h2 j this.1 (by omega)).1)
          have hfe : findEmptyChunk name ((idxList cur (min par (r + 1))).map v) = none :=
            findEmptyChunk_none name _ (fun b hb2 => by
              rcases List.mem_map.mp hb2 with ⟨j, hj, rfl⟩
              have := (idxList_mem _ _ _).mp hj
              exact (h2 j this.1 (by omega)).2)
          simp only [fetchChunksLoopAux]
          rw [if_neg (by omega)]
          split
          · next e heq => rw [hfb] at heq; exact absurd heq (by simp)
          · next bufs heq =>
              rw [hfb] at heq
              have hbufs : bufs = (idxList cur (min par (r + 1))).map v := by
                simpa using heq.symm
              subst hbufs
              split
              · next e heq2 => rw [hfe] at heq2; exact absurd heq2 (by simp)
              · next heq2 =>
                  rw [ih (r + 1 - min par (r + 1)) (cur + min par (r + 1)) _ _ (by omega)
                    (fun j hj1 hj2 => h2 j (by omega) (by omega))]
                  rw [List.append_assoc, ← List.map_append]
                  rw [idxList_append (min par (r + 1)) cur (r + 1 - min par (r + 1))]
                  rw [show min par (r + 1) + (r + 1 - min par (r + 1)) = r + 1 by omega]

theorem fetchLoop_shape (st : BackendState) (name : String) (par : Nat) (hpar : 1 ≤ par)
    (v : Nat → List Nat) :
    ∀ (fuel remaining cur : Nat) (acc : List (List Nat)) (tr : List String),
      remaining ≤ fuel →
      (∀ j, cur ≤ j → j < cur + remaining → getBuffer st (chunkKey name j) = some (v j)) →
      ∀ bufs, (fetchChunksLoopAux st name par fuel remaining cur acc tr).1 = .ok bufs →
        bufs = acc ++ (idxList cur remaining).map v := by
  intro fuel
  induction fuel with
  | zero =>
      intro remaining cur acc tr h1 _ bufs hok
      have : remaining = 0 := by omega
      subst this
      simp only [fetchChunksLoopAux, Except.ok.injEq] at hok
      simp [idxList, ← hok]
  | succ f ih =>
      intro remaining cur acc tr h1 h2 bufs hok
      match remaining with
      | 0 =>
          simp only [fetchChunksLoopAux, Except.ok.injEq] at hok
          simp [idxList, ← hok]
      | r + 1 =>
          have hb : 1 ≤ min par (r + 1) := by omega
          have hfb : fetchBatch st name (idxList cur (min par (r + 1))) =
              .ok ((idxList cur (min par (r + 1))).map v) :=
            fetchBatch_ok st name v _ (fun j hj => by
              have := (idxList_mem _ _ _).mp hj
              exact h2 j this.1 (by omega))
          simp only [fetchChunksLoopAux] at hok
          rw [if_neg (by omega)] at hok
          split at hok
          · next e heq => rw [hfb] at heq; exact absurd heq (by simp)
          · next bufs2 heq =>
              rw [hfb] at heq
              have hbufs2 : bufs2 = (idxList cur (min par (r + 1))).map v := by
                simpa using heq.symm
              subst hbufs2
              split at hok
              · next e heq2 => simp at hok
              · next heq2 =>
                  have := ih (r + 1 - min par (r + 1)) (cur + min par (r + 1)) _ _ (by omega)
                    (fun j hj1 hj2 => h2 j (by omega) (by omega)) bufs hok
                  rw [this, List.append_assoc, ← List.map_append]
                  rw [idxList_append (min par (r + 1)) cur (r + 1 - min par (r + 1))]
                  rw [show min par (r + 1) + (r + 1 - min par (r + 1)) = r + 1 by omega]

theorem idxList_map_getD (l : List (List Nat)) :
    (idxList 0 l.length).map (fun i => l.getD i []) = l := by
  apply List.ext_getElem
  · simp [idxList_length]
  · intro k h1 h2
    rw [List.getElem_map]
    rw [idxList_getElem l.length 0 k (by simpa [idxList_length] using h1)]
    simp only [Nat.zero_add]
    exact List.getD_eq_getElem l [] h2

theorem idxList_map_set (l : List (List Nat)) (i : Nat) (d : List Nat) (_hi : i < l.length) :
    (idxList 0 l.length).map (fun j => if j = i then d else l.getD j []) = l.set i d := by
  apply List.ext_getElem
  · simp [idxList_length]
  · intro k h1 h2
    rw [List.getElem_map]
    rw [idxList_getElem l.length 0 k (by simpa [idxList_length] using h1)]
    simp only [Nat.zero_add]
    rw [List.getElem_set]
    by_cases hk : k = i
    · simp [hk]
    · rw [if_neg hk, if_neg (fun h => hk h.symm)]
      exact List.getD_eq_getElem l [] (by simpa [List.length_set] using h2)

/-! ## Download characterization lemmas -/

theorem downloadFile_ok (st : BackendState) (name : String) (q : Int) (m : FileMetadata)
    (v : Nat → List Nat)
    (hmeta : st.store (metaKey name) = some (.metaStr m))
    (hn : 0 < m.totalChunks)
    (hv : ∀ j, j < m.totalChunks → getBuffer st (chunkKey name j) = some (v j) ∧ v j ≠ [])
    (hflat : ((idxList 0 m.totalChunks).map v).flatten ≠ [])
    (hsum : computeChecksumBytes ((idxList 0 m.totalChunks).map v).flatten = m.checksum) :
    downloadFile st name q = .ok ((idxList 0 m.totalChunks).map v).flatten := by
  have hloop := fetchLoop_ok st name (coerceParallel q) (coerceParallel_pos q) v
    m.totalChunks m.totalChunks 0 [] [] le_rfl
    (fun j hj1 hj2 => hv j (by omega))
  simp only [downloadFile, downloadFileT]
  rw [show readMetadata st (metaKey name) = some (some m) by simp [readMetadata, hmeta]]
  simp only
  rw [if_neg (by omega)]
  split
  · next e tr heq =>
      rw [heq] at hloop
      simp at hloop
  · next bufs tr heq =>
      rw [heq] at hloop
      simp only at hloop
      have hbufs : bufs = (idxList 0 m.totalChunks).map v := by simpa using hloop
      subst hbufs
      rw [if_neg (show ¬ (((idxList 0 m.totalChunks).map v).flatten.length = 0) from
        fun hz => hflat (List.length_eq_zero.mp hz))]
      rw [if_neg (show ¬ (computeChecksumBytes (((idxList 0 m.totalChunks).map v).flatten)
          ≠ m.checksum) from fun hne => hne hsum)]

theorem downloadFile_ok_checksum (st : BackendState) (name : String) (q : Int)
    (m : FileMetadata) (b : List Nat)
    (hmeta : st.store (metaKey name) = some (.metaStr m))
    (hok : downloadFile st name q = .ok b) :
    computeChecksumBytes b = m.checksum := by
  simp only [downloadFile, downloadFileT] at hok
  rw [show readMetadata st (metaKey name) = some (some m) by simp [readMetadata, hmeta]] at hok
  simp only at hok
  by_cases hn : m.totalChunks = 0
  · rw [if_pos hn] at hok
    exact Except.noConfusion hok
  · rw [if_neg hn] at hok
    split at hok
    · exact Except.noConfusion hok
    · next bufs tr heq =>
        by_cases hlen : bufs.flatten.length = 0
        · rw [if_pos hlen] at hok
          exact Except.noConfusion hok
        · rw [if_neg hlen] at hok
          by_cases hdl : computeChecksumBytes bufs.flatten ≠ m.checksum
          · rw [if_pos hdl] at hok
            exact Except.noConfusion hok
          · rw [if_neg hdl] at hok
            simp only [Except.ok.injEq] at hok
            push_neg at hdl
            rw [← hok]
            exact hdl

theorem downloadFile_ok_shape (st : BackendState) (name : String) (q : Int)
    (m : FileMetadata) (v : Nat → List Nat) (b : List Nat)
    (hmeta : st.store (metaKey name) = some (.metaStr m))
    (hv : ∀ j, j < m.totalChunks → getBuffer st (chunkKey name j) = some (v j))
    (hok : downloadFile st name q = .ok b) :
    b = ((idxList 0 m.totalChunks).map v).flatten := by
  simp only [downloadFile, downloadFileT] at hok
  rw [show readMetadata st (metaKey name) = some (some m) by simp [readMetadata, hmeta]] at hok
  simp only at hok
  by_cases hn : m.totalChunks = 0
  · rw [if_pos hn] at hok
    exact Except.noConfusion hok
  · rw [if_neg hn] at hok
    split at hok
    · exact Except.noConfusion hok
    · next bufs tr heq =>
        have hshape := fetchLoop_shape st name (coerceParallel q) (coerceParallel_pos q) v
          m.totalChunks m.totalChunks 0 [] [] le_rfl (fun j hj1 hj2 => hv j (by omega)) bufs
          (by rw [heq])
        by_cases hlen : bufs.flatten.length = 0
        · rw [if_pos hlen] at hok
          exact Except.noConfusion hok
        · rw [if_neg hlen] at hok
          by_cases hdl : computeChecksumBytes bufs.flatten ≠ m.checksum
          · rw [if_pos hdl] at hok
            exact Except.noConfusion hok
          · rw [if_neg hdl] at hok
            simp only [Except.ok.injEq] at hok
            rw [← hok, hshape]
            simp

/-! ## Upload inversion -/

theorem uploadFile_ok_inv (st : BackendState) (frags : List (List Nat)) (name : String)
    (c : Nat) (p : Int) (now : Nat) (st2 : BackendState) (hc : 0 < c)
    (h : uploadFile st frags name c p noFail now = some (.ok (), st2)) :
    c ≤ MAX_CHUNK_SIZE ∧ st2 = finalUploadState st name c now frags := by
  by_cases hle : c ≤ MAX_CHUNK_SIZE
  · refine ⟨hle, ?_⟩
    rw [uploadFile_success st frags name c p now hle (Or.inl hc)] at h
    have := (Option.some.injEq _ _).mp h
    exact ((Prod.mk.injEq _ _ _ _).mp this).2.symm
  · exfalso
    unfold uploadFile at h
    rw [if_pos (by omega)] at h
    simp at h

/-! ## SHA-1 digest bounds and pigeonhole collision -/

theorem sha1Compress_lt (h : Nat × Nat × Nat × Nat × Nat) (blk : List Nat) :
    (sha1Compress h blk).1 < mask32 ∧ (sha1Compress h blk).2.1 < mask32 ∧
    (sha1Compress h blk).2.2.1 < mask32 ∧ (sha1Compress h blk).2.2.2.1 < mask32 ∧
    (sha1Compress h blk).2.2.2.2 < mask32 := by
  have hm : 0 < mask32 := by simp [mask32]
  simp only [sha1Compress]
  exact ⟨Nat.mod_lt _ hm, Nat.mod_lt _ hm, Nat.mod_lt _ hm, Nat.mod_lt _ hm, Nat.mod_lt _ hm⟩

theorem sha1Core_lt (msg : List Nat) :
    (sha1Core msg).1 < mask32 ∧ (sha1Core msg).2.1 < mask32 ∧
    (sha1Core msg).2.2.1 < mask32 ∧ (sha1Core msg).2.2.2.1 < mask32 ∧
    (sha1Core msg).2.2.2.2 < mask32 := by
  suffices H : ∀ (l : List (List Nat)) (h : Nat × Nat × Nat × Nat × Nat),
      h.1 < mask32 → h.2.1 < mask32 → h.2.2.1 < mask32 → h.2.2.2.1 < mask32 →
      h.2.2.2.2 < mask32 →
      (l.foldl (fun h blk => sha1Compress h (bytesToWords blk)) h).1 < mask32 ∧
      (l.foldl (fun h blk => sha1Compress h (bytesToWords blk)) h).2.1 < mask32 ∧
      (l.foldl (fun h blk => sha1Compress h (bytesToWords blk)) h).2.2.1 < mask32 ∧
      (l.foldl (fun h blk => sha1Compress h (bytesToWords blk)) h).2.2.2.1 < mask32 ∧
      (l.foldl (fun h blk => sha1Compress h (bytesToWords blk)) h).2.2.2.2 < mask32 by
    exact H _ _ (by simp [mask32]) (by simp [mask32]) (by simp [mask32]) (by simp [mask32])
      (by simp [mask32])
  intro l
  induction l with
  | nil => intro h h1 h2 h3 h4 h5; exact ⟨h1, h2, h3, h4, h5⟩
  | cons blk rest ih =>
      intro h h1 h2 h3 h4 h5
      simp only [List.foldl_cons]
      have := sha1Compress_lt h (bytesToWords blk)
      exact ih _ this.1 this.2.1 this.2.2.1 this.2.2.2.1 this.2.2.2.2

theorem mul_add_lt_of_lt {x y a M : Nat} (hx : x < a) (hy : y < M) : x * M + y < a * M := by
  calc x * M + y < x * M + M := by omega
  _ = (x + 1) * M := by ring
  _ ≤ a * M := Nat.mul_le_mul_right M hx

theorem digestNat_lt (t : Nat × Nat × Nat × Nat × Nat)
    (h1 : t.1 < mask32) (h2 : t.2.1 < mask32) (h3 : t.2.2.1 < mask32)
    (h4 : t.2.2.2.1 < mask32) (h5 : t.2.2.2.2 < mask32) :
    digestNat t < mask32 ^ 5 := by
  unfold digestNat
  have b1 : t.1 * mask32 + t.2.1 < mask32 ^ 2 := by
    have := mul_add_lt_of_lt h1 h2
    calc t.1 * mask32 + t.2.1 < mask32 * mask32 := this
    _ = mask32 ^ 2 := by ring
  have b2 : (t.1 * mask32 + t.2.1) * mask32 + t.2.2.1 < mask32 ^ 3 := by
    have := mul_add_lt_of_lt b1 h3
    calc (t.1 * mask32 + t.2.1) * mask32 + t.2.2.1 < mask32 ^ 2 * mask32 := this
    _ = mask32 ^ 3 := by ring
  have b3 : ((t.1 * mask32 + t.2.1) * mask32 + t.2.2.1) * mask32 + t.2.2.2.1 < mask32 ^ 4 := by
    have := mul_add_lt_of_lt b2 h4
    calc ((t.1 * mask32 + t.2.1) * mask32 + t.2.2.1) * mask32 + t.2.2.2.1
        < mask32 ^ 3 * mask32 := this
    _ = mask32 ^ 4 := by ring
  have := mul_add_lt_of_lt b3 h5
  calc (((t.1 * mask32 + t.2.1) * mask32 + t.2.2.1) * mask32 + t.2.2.2.1) * mask32 + t.2.2.2.2
      < mask32 ^ 4 * mask32 := this
  _ = mask32 ^ 5 := by ring

theorem digestNat_inj (t u : Nat × Nat × Nat × Nat × Nat)
    (ht1 : t.1 < mask32) (ht2 : t.2.1 < mask32) (ht3 : t.2.2.1 < mask32)
    (ht4 : t.2.2.2.1 < mask32) (ht5 : t.2.2.2.2 < mask32)
    (hu1 : u.1 < mask32) (hu2 : u.2.1 < mask32) (hu3 : u.2.2.1 < mask32)
    (hu4 : u.2.2.2.1 < mask32) (hu5 : u.2.2.2.2 < mask32)
    (h : digestNat t = digestNat u) : t = u := by
  obtain ⟨t1, t2, t3, t4, t5⟩ := t
  obtain ⟨u1, u2, u3, u4, u5⟩ := u
  simp only [digestNat, mask32] at h ht1 ht2 ht3 ht4 ht5 hu1 hu2 hu3 hu4 hu5
  have e1 : t1 = u1 := by omega
  have e2 : t2 = u2 := by omega
  have e3 : t3 = u3 := by omega
  have e4 : t4 = u4 := by omega
  have e5 : t5 = u5 := by omega
  subst e1
  subst e2
  subst e3
  subst e4
  subst e5
  rfl

theorem sha1_collision :
    ∃ b1 b2 : List Nat, b1.length = 21 ∧ b2.length = 21 ∧ b1 ≠ b2 ∧
      sha1Hex b1 = sha1Hex b2 := by
  have hcard : Fintype.card (Fin (mask32 ^ 5)) < Fintype.card (Fin 21 → Fin 256) := by
    rw [Fintype.card_fun]
    simp only [Fintype.card_fin]
    norm_num [mask32]
  obtain ⟨v1, v2, hne, heq⟩ := Fintype.exists_ne_map_eq_of_card_lt
    (fun (v : Fin 21 → Fin 256) =>
      (⟨digestNat (sha1Core (bytesOfVec v)),
        digestNat_lt _ (sha1Core_lt _).1 (sha1Core_lt _).2.1 (sha1Core_lt _).2.2.1
          (sha1Core_lt _).2.2.2.1 (sha1Core_lt _).2.2.2.2⟩ : Fin (mask32 ^ 5)))
    hcard
  refine ⟨bytesOfVec v1, bytesOfVec v2, by simp [bytesOfVec], by simp [bytesOfVec], ?_, ?_⟩
  · intro h
    apply hne
    apply List.ofFn_injective
    exact List.map_injective_iff.mpr Fin.val_injective h
  · have hdig : digestNat (sha1Core (bytesOfVec v1)) = digestNat (sha1Core (bytesOfVec v2)) := by
      simpa [Fin.mk.injEq] using heq
    have hcore : sha1Core (bytesOfVec v1) = sha1Core (bytesOfVec v2) :=
      digestNat_inj _ _ (sha1Core_lt _).1 (sha1Core_lt _).2.1 (sha1Core_lt _).2.2.1
        (sha1Core_lt _).2.2.2.1 (sha1Core_lt _).2.2.2.2
        (sha1Core_lt _).1 (sha1Core_lt _).2.1 (sha1Core_lt _).2.2.1
        (sha1Core_lt _).2.2.2.1 (sha1Core_lt _).2.2.2.2 hdig
    simp [sha1Hex, hcore]

/-! ## Remaining helper lemmas -/

theorem sha1Hex_length (msg : List Nat) : (sha1Hex msg).length = 40 := by
  simp [sha1Hex, renderDigest, String.length_mk, hex8]

theorem downloadFileT_invalidChunkCount (st : BackendState) (name : String) (q : Int)
    (m : FileMetadata) (hmeta : st.store (metaKey name) = some (.metaStr m))
    (h0 : m.totalChunks = 0) :
    downloadFileT st name q = (.error (.invalidChunkCount name), []) := by
  simp only [downloadFileT]
  rw [show readMetadata st (metaKey name) = some (some m) by simp [readMetadata, hmeta]]
  simp only
  rw [if_pos h0]

theorem chunksOf_pos_of_ne_nil (cPred : Nat) (l : List Nat) (h : l ≠ []) :
    0 < (chunksOf cPred l).length := by
  by_contra h0
  have hnil : chunksOf cPred l = [] := by
    cases he : chunksOf cPred l with
    | nil => rfl
    | cons a t => rw [he] at h0; simp at h0
  have := chunksOf_flatten cPred l
  rw [hnil] at this
  exact h this.symm

/-! ## Claim theorems -/

/-- C1 (counterexample): the round-trip property fails as stated for the
empty buffer: uploading zero bytes under a name succeeds, but downloading
that name returns an invalid-chunk-count error rather than a buffer whose
bytes are identical to the (empty) input. -/
theorem C1_round_trip_counterexample :
    ∃ st2, uploadFile emptyBackend [] "f.bin" 4 1 noFail 0 = some (.ok (), st2) ∧
      downloadFile st2 "f.bin" 1 = .error (.invalidChunkCount "f.bin") ∧
      ∀ b : List Nat, downloadFile st2 "f.bin" 1 ≠ .ok b := by
  refine ⟨_, rfl, rfl, ?_⟩
  intro b h
  exact Except.noConfusion h

/-- C1 (amended): for every nonempty byte buffer, every chunk size `c` with
`0 < c ≤ MAX_CHUNK_SIZE` and every file name, uploading the buffer and then
downloading that name returns exactly the original bytes (for any
parallelism values). -/
theorem C1_round_trip_nonempty (st : BackendState) (frags : List (List Nat)) (name : String)
    (c : Nat) (p q : Int) (now : Nat) (hne : frags.flatten ≠ []) (hc1 : 0 < c)
    (hc2 : c ≤ MAX_CHUNK_SIZE) :
    ∃ st2, uploadFile st frags name c p noFail now = some (.ok (), st2) ∧
      downloadFile st2 name q = .ok frags.flatten := by
  refine ⟨_, uploadFile_success st frags name c p now hc2 (Or.inl hc1), ?_⟩
  have hlen0 : 0 < (chunksOf (c - 1) frags.flatten).length :=
    chunksOf_pos_of_ne_nil _ _ hne
  have hmap : (idxList 0 (chunksOf (c - 1) frags.flatten).length).map
      (fun j => (chunksOf (c - 1) frags.flatten).getD j []) = chunksOf (c - 1) frags.flatten :=
    idxList_map_getD _
  have hres := downloadFile_ok (finalUploadState st name c now frags) name q
    ⟨name, (chunksOf (c - 1) frags.flatten).length, c, (frags.map List.length).sum,
      computeChecksumBytes frags.flatten, now⟩
    (fun j => (chunksOf (c - 1) frags.flatten).getD j [])
    (finalUploadState_store_meta st name c now frags)
    hlen0
    (fun j hj => by
      constructor
      · simp [getBuffer, finalUploadState_store_chunk st name c now frags j hj]
      · have hmem : (chunksOf (c - 1) frags.flatten).getD j [] ∈ chunksOf (c - 1) frags.flatten := by
          rw [List.getD_eq_getElem _ _ hj]
          exact List.getElem_mem hj
        exact chunksOf_mem_ne_nil _ _ _ hmem)
    (by rw [hmap, chunksOf_flatten]; exact hne)
    (by rw [hmap, chunksOf_flatten])
  rw [hmap, chunksOf_flatten] at hres
  exact hres

/-- C1 witness. -/
theorem C1_round_trip_nonempty_witness :
    ∃ st2, uploadFile emptyBackend [[1, 2, 3]] "f" 2 1 noFail 0 = some (.ok (), st2) ∧
      downloadFile st2 "f" 1 = .ok ([[1, 2, 3]] : List (List Nat)).flatten :=
  C1_round_trip_nonempty emptyBackend [[1, 2, 3]] "f" 2 1 1 0 (by decide) (by decide) (by decide)

/-- C3: uploading zero-length content succeeds, writing zero chunks (no
store key other than the metadata key changes) and a metadata record with
`totalChunks = 0`, `totalSize = 0` and the checksum of the empty buffer;
downloading that same file name then fails with the invalid-metadata
failure, because the download path rejects `totalChunks = 0`. -/
theorem C3_empty_upload_then_download_fails (st : BackendState) (frags : List (List Nat))
    (name : String) (c : Nat) (p q : Int) (now : Nat) (hjoin : frags.flatten = [])
    (hc : c ≤ MAX_CHUNK_SIZE) :
    ∃ st2, uploadFile st frags name c p noFail now = some (.ok (), st2) ∧
      st2.store (metaKey name) =
        some (.metaStr ⟨name, 0, c, 0, computeChecksumBytes [], now⟩) ∧
      (∀ k, k ≠ metaKey name → st2.store k = st.store k) ∧
      downloadFile st2 name q = .error (.invalidChunkCount name) := by
  have hsum : (frags.map List.length).sum = 0 := by
    rw [← List.length_flatten, hjoin]
    rfl
  have hmeta := finalUploadState_store_meta st name c now frags
  rw [hjoin, chunksOf_nil, hsum] at hmeta
  refine ⟨_, uploadFile_success st frags name c p now hc (Or.inr hjoin), ?_, ?_, ?_⟩
  · exact hmeta
  · intro k hk
    exact finalUploadState_store_other st name c now frags k hk
      (fun j hj => by rw [hjoin, chunksOf_nil] at hj; simp at hj)
  · show (downloadFileT _ name q).1 = _
    rw [downloadFileT_invalidChunkCount _ name q _ hmeta rfl]

/-- C3 witness. -/
theorem C3_empty_upload_then_download_fails_witness :
    ∃ st2, uploadFile emptyBackend [] "f" 4 1 noFail 0 = some (.ok (), st2) ∧
      st2.store (metaKey "f") =
        some (.metaStr ⟨"f", 0, 4, 0, computeChecksumBytes [], 0⟩) ∧
      (∀ k, k ≠ metaKey "f" → st2.store k = emptyBackend.store k) ∧
      downloadFile st2 "f" 1 = .error (.invalidChunkCount "f") :=
  C3_empty_upload_then_download_fails emptyBackend [] "f" 4 1 1 0 rfl (by decide)

/-- C8: when no metadata record exists for a name, download fails with the
not-found error, with an empty chunk-fetch trace (no chunk was requested);
in particular the failure is neither an integrity nor a validation error. -/
theorem C8_not_found (st : BackendState) (name : String) (p : Int)
    (h : st.store (metaKey name) = none) :
    downloadFileT st name p = (.error (.fileNotFound name), []) := by
  simp [downloadFileT, readMetadata, h]

/-- C8 witness. -/
theorem C8_not_found_witness :
    downloadFileT emptyBackend "missing.bin" 1 = (.error (.fileNotFound "missing.bin"), []) :=
  C8_not_found emptyBackend "missing.bin" 1 rfl

/-- C9: a chunk size above `MAX_CHUNK_SIZE` is rejected with the validation
error before any backend call, for any failure oracle, leaving the backend
state literally unchanged. -/
theorem C9_chunk_size_validation (st : BackendState) (frags : List (List Nat))
    (name : String) (c : Nat) (p : Int) (oracle : Nat → Bool) (now : Nat)
    (hc : MAX_CHUNK_SIZE < c) :
    uploadFile st frags name c p oracle now = some (.error .chunkSizeTooLarge, st) := by
  unfold uploadFile
  rw [if_pos (by omega)]

/-- C9 witness. -/
theorem C9_chunk_size_validation_witness :
    uploadFile emptyBackend [[1]] "f" 536870913 1 noFail 0 =
      some (.error .chunkSizeTooLarge, emptyBackend) :=
  C9_chunk_size_validation emptyBackend [[1]] "f" 536870913 1 noFail 0 (by decide)

/-- C10: the chunk-splitting loop terminates (with the expected chunks,
within fuel `length + 1`) for every chunk size `c ≥ 1`; for chunk size 0 on
a non-empty drained buffer the loop index never advances, so the loop does
not terminate within any fuel; and no validation intercepts chunk size 0 —
`uploadFile` reaches the split loop and diverges (`none`). -/
theorem C10_split_loop_termination :
    (∀ (buf : List Nat) (c : Nat), 0 < c →
      splitLoop c buf (buf.length + 1) 0 [] = some (chunksOf (c - 1) buf)) ∧
    (∀ (buf : List Nat), buf ≠ [] → ∀ (fuel i : Nat) (acc : List (List Nat)),
      i < buf.length → splitLoop 0 buf fuel i acc = none) ∧
    (∀ (st : BackendState) (frags : List (List Nat)) (name : String) (p : Int)
      (oracle : Nat → Bool) (now : Nat), frags.flatten ≠ [] →
      uploadFile st frags name 0 p oracle now = none) := by
  refine ⟨fun buf c hc => splitLoop_top c hc buf,
    fun buf _ fuel i acc hi => splitLoop_zero_stuck buf fuel i acc hi, ?_⟩
  intro st frags name p oracle now hne
  simp only [uploadFile]
  rw [if_neg (by decide)]
  rw [splitLoop_zero_stuck frags.flatten _ 0 [] (List.length_pos.mpr hne)]

/-- C10 witness. -/
theorem C10_split_loop_termination_witness :
    splitLoop 1 [7, 8] 3 0 [] = some (chunksOf 0 [7, 8]) ∧
    splitLoop 0 [7] 5 0 [] = none ∧
    uploadFile emptyBackend [[7]] "f" 0 1 noFail 0 = none :=
  ⟨C10_split_loop_termination.1 [7, 8] 1 (by decide),
   C10_split_loop_termination.2.1 [7] (by decide) 5 0 [] (by decide),
   C10_split_loop_termination.2.2 emptyBackend [[7]] "f" 1 noFail 0 (by decide)⟩

/-- C4: with the repository's backend (whose `set` never rejects), a zero or
negative parallelism value makes `uploadFile` and `downloadFile` behave
exactly as the sequential call with parallelism 1: the same result and the
same backend state for upload, and the same result and fetch trace for
download (`Math.max(1, _parallel || 1)` coerces the value). -/
theorem C4_nonpositive_parallelism (st : BackendState) (frags : List (List Nat))
    (name : String) (c : Nat) (now : Nat) (p : Int) (hp : p ≤ 0) :
    uploadFile st frags name c p noFail now = uploadFile st frags name c 1 noFail now ∧
    downloadFileT st name p = downloadFileT st name 1 := by
  constructor
  · simp only [uploadFile]
    by_cases hc : c > MAX_CHUNK_SIZE
    · rw [if_pos hc, if_pos hc]
    · rw [if_neg hc, if_neg hc]
      cases hs : splitLoop c frags.flatten (frags.flatten.length + 1) 0 [] with
      | none => rfl
      | some chunks =>
          simp only
          rw [writeChunksLoop_noFail name p chunks 0 [] st 0 (by simp),
            writeChunksLoop_noFail name 1 chunks 0 [] st 0 (by simp)]
  · simp only [downloadFileT]
    rw [coerceParallel_nonpos p hp]
    rfl

/-- C4 witness. -/
theorem C4_nonpositive_parallelism_witness :
    (uploadFile emptyBackend [[1, 2]] "f" 1 0 noFail 0 =
      uploadFile emptyBackend [[1, 2]] "f" 1 1 noFail 0) ∧
    downloadFileT emptyBackend "f" (-1) = downloadFileT emptyBackend "f" 1 :=
  ⟨(C4_nonpositive_parallelism emptyBackend [[1, 2]] "f" 1 0 0 (by decide)).1,
   (C4_nonpositive_parallelism emptyBackend [[1, 2]] "f" 1 0 (-1) (by decide)).2⟩

/-- C5 (code bug): uploading a 3-byte buffer with chunk size 1 and
parallelism 2 while the backend rejects the third chunk-write call
(call number 2) still reports success: the rejected write sits in the
trailing `pendingWrites` batch, which the loop never awaits, so the failure
is not observed, the third chunk is missing from the store, yet the metadata
record (claiming 3 chunks) and the file-index entry are written — and a
subsequent download fails with a missing-chunk error.  This contradicts the
claim that a failing chunk write prevents the metadata/index writes and is
re-raised. -/
theorem C5_unawaited_trailing_batch :
    ∃ st2, uploadFile emptyBackend [[1, 2, 3]] "f" 1 2 (fun n => n == 2) 0 =
        some (.ok (), st2) ∧
      st2.store (chunkKey "f" 2) = none ∧
      st2.store (metaKey "f") =
        some (.metaStr ⟨"f", 3, 1, 3, computeChecksumBytes [1, 2, 3], 0⟩) ∧
      st2.listStore FILE_LIST_KEY = [.str "f"] ∧
      downloadFile st2 "f" 2 = .error (.chunkMissing 2 "f") := by
  exact ⟨_, rfl, rfl, rfl, rfl, rfl⟩

/-- C6: after a successful upload of a buffer `B` with chunk size
`0 < c ≤ MAX_CHUNK_SIZE` into an empty backend, the stored metadata has
`totalChunks = ceil (len B / c)` (which is 0 for empty `B`) and
`totalSize = len B`, and no chunk key with index `totalChunks` exists in
the backend for that file name. -/
theorem C6_chunk_count_invariant (frags : List (List Nat)) (name : String) (c : Nat)
    (p : Int) (now : Nat) (hc1 : 0 < c) (hc2 : c ≤ MAX_CHUNK_SIZE) :
    ∃ st2, uploadFile emptyBackend frags name c p noFail now = some (.ok (), st2) ∧
      st2.store (metaKey name) =
        some (.metaStr ⟨name, (frags.flatten.length + c - 1) / c, c, frags.flatten.length,
          computeChecksumBytes frags.flatten, now⟩) ∧
      st2.store (chunkKey name ((frags.flatten.length + c - 1) / c)) = none := by
  have hl : (chunksOf (c - 1) frags.flatten).length = (frags.flatten.length + c - 1) / c := by
    rw [chunksOf_length]
    rw [show c - 1 + 1 = c by omega, show frags.flatten.length + (c - 1) =
      frags.flatten.length + c - 1 by omega]
  have hsum : (frags.map List.length).sum = frags.flatten.length :=
    (List.length_flatten frags).symm
  refine ⟨_, uploadFile_success emptyBackend frags name c p now hc2 (Or.inl hc1), ?_, ?_⟩
  · have hmeta := finalUploadState_store_meta emptyBackend name c now frags
    rw [hl, hsum] at hmeta
    exact hmeta
  · rw [finalUploadState_store_other emptyBackend name c now frags _
      (fun h => metaKey_ne_chunkKey name name _ h.symm)
      (fun j hj he => by
        have := chunkKey_inj name he
        rw [hl] at hj
        omega)]
    rfl

/-- C6 witness. -/
theorem C6_chunk_count_invariant_witness :
    ∃ st2, uploadFile emptyBackend [[1, 2, 3]] "f" 2 1 noFail 0 = some (.ok (), st2) ∧
      st2.store (metaKey "f") =
        some (.metaStr ⟨"f", (([[1, 2, 3]] : List (List Nat)).flatten.length + 2 - 1) / 2, 2,
          ([[1, 2, 3]] : List (List Nat)).flatten.length,
          computeChecksumBytes ([[1, 2, 3]] : List (List Nat)).flatten, 0⟩) ∧
      st2.store (chunkKey "f" ((([[1, 2, 3]] : List (List Nat)).flatten.length + 2 - 1) / 2)) =
        none :=
  C6_chunk_count_invariant [[1, 2, 3]] "f" 2 1 0 (by decide) (by decide)

/-- C2 (amended): downloads are checksum-gated.  First, any buffer a
download returns has a recomputed digest equal to the stored metadata
checksum — a corrupted buffer whose digest mismatches is never returned.
Second, altering a stored chunk of an uploaded file to bytes whose
concatenated content digests differently from the original makes the
subsequent download fail with an error.  (The unconditional form of the
claim fails exactly on SHA-1 collisions; see the counterexample.) -/
theorem C2_checksum_integrity :
    (∀ (st : BackendState) (name : String) (q : Int) (m : FileMetadata) (b : List Nat),
      st.store (metaKey name) = some (.metaStr m) →
      downloadFile st name q = .ok b →
      computeChecksumBytes b = m.checksum) ∧
    (∀ (st st2 : BackendState) (frags : List (List Nat)) (name : String) (c : Nat)
      (p q : Int) (now i : Nat) (d : List Nat),
      uploadFile st frags name c p noFail now = some (.ok (), st2) →
      0 < c →
      i < (chunksOf (c - 1) frags.flatten).length →
      computeChecksumBytes (((chunksOf (c - 1) frags.flatten).set i d).flatten) ≠
        computeChecksumBytes frags.flatten →
      ∃ e, downloadFile (setStore st2 (chunkKey name i) (.buf d)) name q = .error e) := by
  constructor
  · exact fun st name q m b hmeta hok => downloadFile_ok_checksum st name q m b hmeta hok
  · intro st st2 frags name c p q now i d hup hc hi hdig
    obtain ⟨hle, hst2⟩ := uploadFile_ok_inv st frags name c p now st2 hc hup
    subst hst2
    have hmeta3 : (setStore (finalUploadState st name c now frags) (chunkKey name i)
        (.buf d)).store (metaKey name) =
        some (.metaStr ⟨name, (chunksOf (c - 1) frags.flatten).length, c,
          (frags.map List.length).sum, computeChecksumBytes frags.flatten, now⟩) := by
      simp only [setStore]
      rw [if_neg (metaKey_ne_chunkKey name name i)]
      exact finalUploadState_store_meta st name c now frags
    have hv : ∀ j, j < (chunksOf (c - 1) frags.flatten).length →
        getBuffer (setStore (finalUploadState st name c now frags) (chunkKey name i)
          (.buf d)) (chunkKey name j) =
          some (if j = i then d else (chunksOf (c - 1) frags.flatten).getD j []) := by
      intro j hj
      by_cases hji : j = i
      · subst hji
        simp [getBuffer, setStore]
      · simp only [getBuffer, setStore]
        rw [if_neg (fun he => hji (chunkKey_inj name he))]
        rw [finalUploadState_store_chunk st name c now frags j hj]
        simp [hji]
    cases hres : downloadFile (setStore (finalUploadState st name c now frags)
        (chunkKey name i) (.buf d)) name q with
    | error e => exact ⟨e, rfl⟩
    | ok b =>
        exfalso
        have hb := downloadFile_ok_shape _ name q _
          (fun j => if j = i then d else (chunksOf (c - 1) frags.flatten).getD j []) b
          hmeta3 hv hres
        have hcs := downloadFile_ok_checksum _ name q _ b hmeta3 hres
        have hset := idxList_map_set (chunksOf (c - 1) frags.flatten) i d hi
        rw [hset] at hb
        rw [hb] at hcs
        exact hdig hcs

/-- C2 witness. -/
theorem C2_checksum_integrity_witness :
    ∃ st2 e, uploadFile emptyBackend [[1, 2, 3]] "f" 2 1 noFail 0 = some (.ok (), st2) ∧
      downloadFile (setStore st2 (chunkKey "f" 0) (.buf [9, 9])) "f" 1 = .error e := by
  obtain ⟨e, he⟩ := C2_checksum_integrity.2 emptyBackend _ [[1, 2, 3]] "f" 2 1 1 0 0 [9, 9]
    rfl (by decide) (by decide) (by decide)
  exact ⟨_, e, rfl, he⟩

/-- C2 (counterexample): the claim in its unconditional form — any
alteration of a stored chunk to different bytes makes download fail, never
returning the altered bytes — is false: SHA-1 digests 21-byte buffers into a
160-bit space, so two distinct 21-byte buffers share a digest (pigeonhole);
uploading one of them and overwriting its single stored chunk with the
other makes download verify the stored checksum against the altered bytes
and return the altered buffer. -/
theorem C2_checksum_integrity_counterexample :
    ¬ (∀ (st st2 : BackendState) (frags : List (List Nat)) (name : String) (c : Nat)
        (now i : Nat) (d orig : List Nat),
        uploadFile st frags name c 1 noFail now = some (.ok (), st2) →
        st2.store (chunkKey name i) = some (.buf orig) →
        d ≠ orig →
        ∀ b : List Nat,
          downloadFile (setStore st2 (chunkKey name i) (.buf d)) name 1 ≠ .ok b) := by
  intro hclaim
  obtain ⟨b1, b2, hl1, hl2, hne, hdig⟩ := sha1_collision
  have hb1ne : b1 ≠ [] := by intro h; rw [h] at hl1; simp at hl1
  have hb2ne : b2 ≠ [] := by intro h; rw [h] at hl2; simp at hl2
  have hflat : ([b1] : List (List Nat)).flatten = b1 := by simp
  have hchunks : chunksOf (21 - 1) ([b1] : List (List Nat)).flatten = [b1] := by
    rw [hflat]
    cases hb : b1 with
    | nil => exact absurd hb hb1ne
    | cons a tl =>
        have htl : tl.length = 20 := by rw [hb] at hl1; simp at hl1; omega
        rw [chunksOf_cons]
        rw [List.take_of_length_le (by omega), List.drop_eq_nil_of_le (by omega), chunksOf_nil]
  have hup := uploadFile_success emptyBackend [b1] "x" 21 1 0 (by decide) (Or.inl (by decide))
  have hchunk0 : (finalUploadState emptyBackend "x" 21 0 [b1]).store (chunkKey "x" 0) =
      some (.buf b1) := by
    have h0 := finalUploadState_store_chunk emptyBackend "x" 21 0 [b1] 0 (by rw [hchunks]; simp)
    rw [hchunks] at h0
    simpa using h0
  have hmeta := finalUploadState_store_meta emptyBackend "x" 21 0 [b1]
  rw [hchunks] at hmeta
  have hmeta3 : (setStore (finalUploadState emptyBackend "x" 21 0 [b1]) (chunkKey "x" 0)
      (.buf b2)).store (metaKey "x") =
      some (.metaStr ⟨"x", ([b1] : List (List Nat)).length, 21,
        (([b1] : List (List Nat)).map List.length).sum,
        computeChecksumBytes ([b1] : List (List Nat)).flatten, 0⟩) := by
    simp only [setStore]
    rw [if_neg (metaKey_ne_chunkKey "x" "x" 0)]
    exact hmeta
  have hdl : downloadFile (setStore (finalUploadState emptyBackend "x" 21 0 [b1])
      (chunkKey "x" 0) (.buf b2)) "x" 1 = .ok b2 := by
    have hres := downloadFile_ok _ "x" 1
      ⟨"x", ([b1] : List (List Nat)).length, 21, (([b1] : List (List Nat)).map List.length).sum,
        computeChecksumBytes ([b1] : List (List Nat)).flatten, 0⟩
      (fun _ => b2) hmeta3 (by simp)
      (fun j hj => by
        have hj0 : j = 0 := by simpa using hj
        subst hj0
        exact ⟨by simp [getBuffer, setStore], hb2ne⟩)
      (by simp [idxList]; exact hb2ne)
      (by
        simp only [idxList, List.map, List.flatten_cons, List.flatten_nil, List.append_nil,
          hflat]
        exact hdig.symm)
    simpa [idxList] using hres
  exact hclaim emptyBackend _ [b1] "x" 21 0 0 b2 b1 hup hchunk0 hne.symm b2 hdl

/-- C7: `computeChecksum` is a pure function of the logical byte window of
its input: buffers with the same data view (regardless of backing
allocation or offset) digest identically; the digest is always 40 hex
characters; and the digest of the window is genuine SHA-1 — the standard
test vector for "abc", embedded at offset 1 of a larger backing allocation,
yields the standard digest, untouched by the surrounding backing bytes. -/
theorem C7_computeChecksum_pure_window :
    (∀ b1 b2 : JsBuffer, toDataView b1 = toDataView b2 →
      computeChecksum b1 = computeChecksum b2) ∧
    (∀ b : JsBuffer, (computeChecksum b).length = 40) ∧
    computeChecksum ⟨[0, 0x61, 0x62, 0x63, 0], 1, 3⟩ =
      "a9993e364706816aba3e25717850c26c9cd0d89d" := by
  refine ⟨?_, ?_, by decide⟩
  · intro b1 b2 h
    simp [computeChecksum, h]
  · intro b
    exact sha1Hex_length _

/-- C7 witness. -/
theorem C7_computeChecksum_pure_window_witness :
    computeChecksum ⟨[1, 2, 3, 4], 1, 2⟩ = computeChecksum ⟨[9, 2, 3, 9, 9], 1, 2⟩ ∧
    (computeChecksum ⟨[5], 0, 1⟩).length = 40 :=
  ⟨C7_computeChecksum_pure_window.1 _ _ (by decide),
   C7_computeChecksum_pure_window.2.1 _⟩
